import Mathlib

/-!
Verification development for the cpp-thread-pool repository.

Shallow embedding of the core components:
- `MPMCQueue` embeds `src/include/lc_mpmc_queue.h` (bounded lock-free ring
  queue with sequenced cells);
- the wait strategies embed `src/include/lc_wait_strategy.h`;
- `ThreadPoolModel` embeds `src/include/lc_thread_pool.h` (lifecycle state,
  submit, shutdown, worker loop).

The embedding is sequential: atomic loads/stores and CAS are modelled as
plain reads/writes, with a CAS succeeding exactly when the expected value
matches (no interference in a single-thread execution).  `std::size_t`
positions and sequence numbers are modelled as unbounded `Nat`: the C++
code computes `diff` as a signed `intptr_t` difference, which coincides
with the `Int` difference of the `Nat` values for every execution shorter
than `2^63` operations (wrap-around of the 64-bit counters is the only
abstraction taken).  Moved-from C++ values are modelled as `none`.
-/

namespace LC

/-- One ring cell of `MPMCQueue` (`struct alignas(64) Cell`): an atomic
`sequence` counter and the storage slot for one element.  A cell whose slot
holds no live element (initial state or moved-from after dequeue) is
modelled with `value = none`. -/
structure Cell (α : Type) where
  sequence : Nat
  value : Option α
deriving DecidableEq, Repr

/-- State of `MPMCQueue<Tp_>` from `src/include/lc_mpmc_queue.h`: the cell
array `pool_`, the constant mask `pool_mask_`, and the two position
counters `enqueue_index_` and `dequeue_index_`. -/
structure MPMCQueue (α : Type) where
  pool : List (Cell α)
  pool_mask : Nat
  enqueue_index : Nat
  dequeue_index : Nat
deriving DecidableEq, Repr

/-- Cell lookup `pool_[i]`; out-of-range reads (never reached from valid
states) give a dummy cell. -/
def cellAt (q : MPMCQueue α) (i : Nat) : Cell α :=
  q.pool.getD i ⟨0, none⟩

/-- Embeds the constructor `MPMCQueue(std::size_t queue_size)`.  The body
throws `std::invalid_argument` when `queue_size < 2 || (queue_size &
pool_mask_) != 0` with `pool_mask_ = queue_size - 1` (modelled as `none`,
in which case no queue object exists); otherwise every cell `i` gets
sequence `i`, and both position counters are zeroed. -/
def MPMCQueue.new (α : Type) (queue_size : Nat) : Option (MPMCQueue α) :=
  if queue_size < 2 || (queue_size &&& (queue_size - 1)) != 0 then
    none
  else
    some { pool := (List.range queue_size).map (fun i => ⟨i, none⟩)
           pool_mask := queue_size - 1
           enqueue_index := 0
           dequeue_index := 0 }

/-- Embeds the retry loop of `bool MPMCQueue::enqueue(Tp_ value)`.  `pos`
is the snapshot of `enqueue_index_`; `diff = (intptr_t)seq - (intptr_t)pos`.
On `diff == 0` the CAS on `enqueue_index_` succeeds in the sequential model
exactly when the counter still equals `pos`; on success the value is moved
into the cell and the cell's sequence becomes `pos + 1`.  `diff < 0`
reports full.  `diff > 0` (and a failed CAS) re-reads `enqueue_index_` and
retries; the `fuel` argument bounds the retries so the function is total —
`none` marks a retry budget exhausted, which is unreachable from valid
sequential states. -/
def enqueueLoop (q : MPMCQueue α) (v : α) : Nat → Nat → Option (Bool × MPMCQueue α)
  | _, 0 => none
  | pos, fuel + 1 =>
    let cell := cellAt q (pos &&& q.pool_mask)
    let diff : Int := (cell.sequence : Int) - (pos : Int)
    if diff = 0 then
      if q.enqueue_index = pos then
        some (true, { q with
          enqueue_index := pos + 1
          pool := q.pool.set (pos &&& q.pool_mask) ⟨pos + 1, some v⟩ })
      else
        enqueueLoop q v q.enqueue_index fuel
    else if diff < 0 then
      some (false, q)
    else
      enqueueLoop q v q.enqueue_index fuel

/-- Embeds `bool MPMCQueue::enqueue(Tp_ value)`: run the retry loop from
the current `enqueue_index_`. -/
def MPMCQueue.enqueue (q : MPMCQueue α) (v : α) : Option (Bool × MPMCQueue α) :=
  enqueueLoop q v q.enqueue_index (q.pool.length + 2)

/-- Embeds the retry loop of `bool MPMCQueue::dequeue(Tp_ &value)`.
`diff = (intptr_t)seq - (intptr_t)(pos + 1)`.  On success the cell's value
is moved into the out-parameter (the cell keeps a moved-from slot, modelled
`none`) and the cell's sequence becomes `pos + pool_mask_ + 1`.  `diff < 0`
reports empty. -/
def dequeueLoop (q : MPMCQueue α) : Nat → Nat → Option (Bool × Option α × MPMCQueue α)
  | _, 0 => none
  | pos, fuel + 1 =>
    let cell := cellAt q (pos &&& q.pool_mask)
    let diff : Int := (cell.sequence : Int) - ((pos : Int) + 1)
    if diff = 0 then
      if q.dequeue_index = pos then
        some (true, cell.value, { q with
          dequeue_index := pos + 1
          pool := q.pool.set (pos &&& q.pool_mask) ⟨pos + q.pool_mask + 1, none⟩ })
      else
        dequeueLoop q q.dequeue_index fuel
    else if diff < 0 then
      some (false, none, q)
    else
      dequeueLoop q q.dequeue_index fuel

/-- Embeds `bool MPMCQueue::dequeue(Tp_ &value)`: run the retry loop from
the current `dequeue_index_`. -/
def MPMCQueue.dequeue (q : MPMCQueue α) : Option (Bool × Option α × MPMCQueue α) :=
  dequeueLoop q q.dequeue_index (q.pool.length + 2)

/-- Queue state after the success path of `enqueue` claiming the current
`enqueue_index_`. -/
def enqResult (q : MPMCQueue α) (v : α) : MPMCQueue α :=
  { q with
    enqueue_index := q.enqueue_index + 1
    pool := q.pool.set (q.enqueue_index &&& q.pool_mask)
              ⟨q.enqueue_index + 1, some v⟩ }

/-- Queue state after the success path of `dequeue` claiming the current
`dequeue_index_`. -/
def deqResult (q : MPMCQueue α) : MPMCQueue α :=
  { q with
    dequeue_index := q.dequeue_index + 1
    pool := q.pool.set (q.dequeue_index &&& q.pool_mask)
              ⟨q.dequeue_index + q.pool_mask + 1, none⟩ }

/-- Sequential state invariant of a queue whose live (enqueued, not yet
dequeued) contents are the list `l`, oldest first.  Positions
`[dequeue_index, enqueue_index)` are filled: the cell at `p % N` carries
sequence `p + 1` and the value enqueued at `p`.  Positions
`[enqueue_index, dequeue_index + N)` are writable: the cell at `p % N`
carries sequence `p`.  Every state reachable from `MPMCQueue.new` by
`enqueue`/`dequeue` satisfies it. -/
def Inv [DecidableEq α] (q : MPMCQueue α) (l : List α) : Prop :=
  2 ≤ q.pool.length ∧
  (∃ k ∈ Finset.range q.pool.length, q.pool.length = 2 ^ k) ∧
  q.pool_mask = q.pool.length - 1 ∧
  q.dequeue_index ≤ q.enqueue_index ∧
  q.enqueue_index ≤ q.dequeue_index + q.pool.length ∧
  l.length = q.enqueue_index - q.dequeue_index ∧
  (∀ k ∈ Finset.range l.length,
    (cellAt q ((q.dequeue_index + k) % q.pool.length)).sequence
        = q.dequeue_index + k + 1 ∧
    (cellAt q ((q.dequeue_index + k) % q.pool.length)).value = l[k]?) ∧
  (∀ p ∈ Finset.Ico q.enqueue_index (q.dequeue_index + q.pool.length),
    (cellAt q (p % q.pool.length)).sequence = p)

instance [DecidableEq α] (q : MPMCQueue α) (l : List α) : Decidable (Inv q l) := by
  unfold Inv
  infer_instance

/-- Embeds a call site `q.enqueue(std::move(x))` for a move-only element
type.  `bool enqueue(Tp_ value)` takes its parameter by value, so the
caller's object `x` is moved into the parameter when the call is made,
before any queue logic runs; when the call returns — on the `true` and the
`false` path alike — the parameter is destroyed, and the `bool` return
value carries nothing back.  Hence the caller is left holding a moved-from
object (`none`) in every case.  The first component of the result is what
the caller still owns after the call. -/
def enqueueCallMoveOnly (q : MPMCQueue α) (caller : Option α) :
    Option α × Option (Bool × MPMCQueue α) :=
  match caller with
  | none => (none, none)
  | some v => (none, q.enqueue v)

/-! Wait strategies, from `src/include/lc_wait_strategy.h`. -/

/-- Observable behaviour of one `wait()` call of `SpinBackOffWaitStrategy`:
a pure spin iteration (`spin_count_ < KSpinCount`), a CPU pause hint
(`_mm_pause` / `yield` asm / `std::this_thread::yield` depending on the
architecture, taken while `spin_count_ < KSpinCount + KPauseCount`), an OS
yield, or no action at all. -/
inductive SpinAction where
  | spinLoad
  | pauseHint
  | yieldOS
  | noAction
deriving DecidableEq, Repr

/-- State of `SpinBackOffWaitStrategy<KSpinCount, KPauseCount>`: the
member `spin_count_`, zero on construction. -/
structure SpinBackOffWaitStrategy where
  spin_count : Nat
deriving DecidableEq, Repr

/-- Embeds `SpinBackOffWaitStrategy::wait()` with template parameters
`S = KSpinCount`, `P = KPauseCount`.  If `spin_count_ < S`, increment and
spin; else if `spin_count_ < S + P`, increment and issue the pause hint;
otherwise the function body has no further branch and the call does
nothing. -/
def SpinBackOffWaitStrategy.wait (S P : Nat) (s : SpinBackOffWaitStrategy) :
    SpinAction × SpinBackOffWaitStrategy :=
  if s.spin_count < S then
    (.spinLoad, ⟨s.spin_count + 1⟩)
  else if s.spin_count < S + P then
    (.pauseHint, ⟨s.spin_count + 1⟩)
  else
    (.noAction, s)

/-- Embeds `SpinBackOffWaitStrategy::reset()`: `spin_count_ = 0`. -/
def SpinBackOffWaitStrategy.reset (_s : SpinBackOffWaitStrategy) :
    SpinBackOffWaitStrategy :=
  ⟨0⟩

/-- State after the strategy is constructed (`spin_count_(0)`) and `wait()`
has then been called `n` times with no intervening `reset()`. -/
def waitN (S P : Nat) : Nat → SpinBackOffWaitStrategy
  | 0 => ⟨0⟩
  | n + 1 => (SpinBackOffWaitStrategy.wait S P (waitN S P n)).2

/-- State of `AtomicWaitStrategy`: the member `notified_`, false on
construction. -/
structure AtomicWaitStrategy where
  notified : Bool
deriving DecidableEq, Repr

/-- Observable behaviour of one `AtomicWaitStrategy::wait()` call:
`notified_.wait(false, acquire)` returns immediately when the flag is
already `true`, and otherwise blocks until a notification makes it
`true`.  The call never modifies the flag. -/
inductive WaitOutcome where
  | immediate
  | blocks
deriving DecidableEq, Repr

/-- Embeds `AtomicWaitStrategy::wait()`. -/
def AtomicWaitStrategy.wait (s : AtomicWaitStrategy) : WaitOutcome :=
  if s.notified then .immediate else .blocks

/-- Embeds `AtomicWaitStrategy::notify()`: store `true`, wake one. -/
def AtomicWaitStrategy.notify (_s : AtomicWaitStrategy) : AtomicWaitStrategy :=
  ⟨true⟩

/-- Embeds `AtomicWaitStrategy::notify_all()`: store `true`, wake all. -/
def AtomicWaitStrategy.notify_all (_s : AtomicWaitStrategy) : AtomicWaitStrategy :=
  ⟨true⟩

/-- Embeds `AtomicWaitStrategy::reset()`: store `false`. -/
def AtomicWaitStrategy.reset (_s : AtomicWaitStrategy) : AtomicWaitStrategy :=
  ⟨false⟩

/-- Calls on an `AtomicWaitStrategy` instance, for reasoning about call
sequences. -/
inductive AtomicOp where
  | wait
  | notify
  | notifyAll
  | reset
deriving DecidableEq, Repr

/-- Effect of one call on the strategy state (`wait` only reads the
flag). -/
def applyAtomicOp (s : AtomicWaitStrategy) : AtomicOp → AtomicWaitStrategy
  | .wait => s
  | .notify => s.notify
  | .notifyAll => s.notify_all
  | .reset => s.reset

/-- Flag state after a sequence of calls. -/
def runAtomicOps (s : AtomicWaitStrategy) : List AtomicOp → AtomicWaitStrategy
  | [] => s
  | op :: ops => runAtomicOps (applyAtomicOp s op) ops

/-! Thread pool, from `src/include/lc_thread_pool.h`. -/

/-- The lifecycle `enum class State` of `ThreadPool`. -/
inductive State where
  | Initializing
  | Running
  | Stopping
  | Stopped
deriving DecidableEq, Repr

/-- State of `ThreadPool<PoolSize, Meta, AtomicWaitStrategy>` (with the
default wait strategy).  Task envelopes are abstracted as values of `α`;
`executed` is the model-level log of envelopes a worker has invoked
(`task.data()`), oldest first. -/
structure ThreadPoolModel (α : Type) where
  task_queue : MPMCQueue α
  state : State
  active_tasks : Nat
  wait_strategy : AtomicWaitStrategy
  executed : List α
deriving DecidableEq, Repr

/-- Observable steps `ThreadPool::shutdown()` performs, in order. -/
inductive PoolEvent where
  | StoreState (s : State)
  | NotifyAll
  | JoinWorker (i : Nat)
deriving DecidableEq, Repr

/-- Embeds `ThreadPool::shutdown()` for a pool with `P = PoolSize`
workers.  The guard returns at once when `state_ != State::Running`; the
second component lists the observable steps taken: on the `Running` path
the pool stores `Stopping` (release), calls `notify_all` on the wait
strategy, joins each worker in order, then stores `Stopped`.  In the
sequential model the joins terminate (worker-loop termination is proved
separately on `worker_run`), so the resulting state is `Stopped`. -/
def shutdown (P : Nat) (p : ThreadPoolModel α) :
    ThreadPoolModel α × List PoolEvent :=
  if p.state ≠ State.Running then
    (p, [])
  else
    ({ p with
        state := State.Stopped
        wait_strategy := p.wait_strategy.notify_all },
     [PoolEvent.StoreState State.Stopping, PoolEvent.NotifyAll]
       ++ (List.range P).map PoolEvent.JoinWorker
       ++ [PoolEvent.StoreState State.Stopped])

/-- Result of one `ThreadPool::submit` call.  The function either returns
the `std::future` obtained from the packaged task (`ok`), or throws
`std::runtime_error("Failed to enqueue task")` when `enqueue` returned
`false` (`enqueueFailed`).  No other outcome exists in the source: the
body never reads `state_`, so no `NotRunning` failure can occur. -/
inductive SubmitOutcome where
  | ok
  | enqueueFailed
deriving DecidableEq, Repr

/-- Embeds `ThreadPool::submit(ctx, func)`: package the task, enqueue the
envelope, and on success call `notify()` on the wait strategy and return
the future.  `none` marks the unreachable queue retry-budget exhaustion. -/
def submit (p : ThreadPoolModel α) (task : α) :
    Option (SubmitOutcome × ThreadPoolModel α) :=
  match p.task_queue.enqueue task with
  | some (true, q') =>
      some (SubmitOutcome.ok,
            { p with task_queue := q', wait_strategy := p.wait_strategy.notify })
  | some (false, _) => some (SubmitOutcome.enqueueFailed, p)
  | none => none

/-- Result of one iteration of the `while (true)` loop in
`ThreadPool::worker_thread`. -/
inductive WorkerStep (α : Type) where
  | exited
  | next (p : ThreadPoolModel α)
  | stuck
deriving DecidableEq, Repr

/-- Embeds one iteration of the loop body of `ThreadPool::worker_thread`:
attempt `dequeue`; on success call `strategy.reset()`, bump
`active_tasks_`, invoke the envelope (logged in `executed`), and drop
`active_tasks_` back (the counter is transiently `active_tasks + 1` while
the envelope runs and returns to its prior value before the next
iteration); on failure `break` out of the loop exactly when
`state_ == State::Stopping && active_tasks_ == 0`, and otherwise call
`strategy.wait()` (which does not change the flag) and loop again. -/
def worker_step (p : ThreadPoolModel α) : WorkerStep α :=
  match p.task_queue.dequeue with
  | some (true, v, q') =>
      WorkerStep.next { p with
        task_queue := q'
        wait_strategy := p.wait_strategy.reset
        executed := p.executed ++ v.toList }
  | some (false, _, _) =>
      if p.state = State.Stopping ∧ p.active_tasks = 0 then
        WorkerStep.exited
      else
        WorkerStep.next p
  | none => WorkerStep.stuck

/-- Run the worker loop for at most `fuel` iterations; `some p'` means the
loop exited (via the `break`) with final pool state `p'`. -/
def worker_run (fuel : Nat) (p : ThreadPoolModel α) : Option (ThreadPoolModel α) :=
  match fuel with
  | 0 => none
  | fuel + 1 =>
    match worker_step p with
    | .exited => some p
    | .next p' => worker_run fuel p'
    | .stuck => none

/-! Helper lemmas. -/

theorem getD_set_self (l : List (Cell α)) (i : Nat) (c d : Cell α)
    (h : i < l.length) : (l.set i c).getD i d = c := by
  simp [List.getD_eq_getElem?_getD, List.getElem?_set_self, h]

theorem getD_set_ne (l : List (Cell α)) (i j : Nat) (c d : Cell α)
    (h : i ≠ j) : (l.set i c).getD j d = l.getD j d := by
  simp [List.getD_eq_getElem?_getD, List.getElem?_set_ne h]

theorem getD_map_range (f : Nat → Cell α) (n i : Nat) (d : Cell α) (h : i < n) :
    (((List.range n).map f).getD i d) = f i := by
  simp [List.getD_eq_getElem?_getD, List.getElem?_map, List.getElem?_range h]

/-- Two positions in one window of length `N` with equal residues modulo
`N` are equal. -/
theorem mod_eq_of_window {N d p₁ p₂ : Nat} (h₁ : d ≤ p₁) (h₁' : p₁ < d + N)
    (h₂ : d ≤ p₂) (h₂' : p₂ < d + N) (hm : p₁ % N = p₂ % N) : p₁ = p₂ := by
  rcases Nat.le_total p₁ p₂ with hle | hle
  · have hdvd : N ∣ p₂ - p₁ := (Nat.modEq_iff_dvd' hle).1 hm
    have : p₂ - p₁ < N := by omega
    have := Nat.eq_zero_of_dvd_of_lt hdvd
    omega
  · have hdvd : N ∣ p₁ - p₂ := (Nat.modEq_iff_dvd' hle).1 hm.symm
    have : p₁ - p₂ < N := by omega
    have := Nat.eq_zero_of_dvd_of_lt hdvd
    omega

theorem two_mul_and_pred (m : Nat) (h : 1 ≤ m) :
    (2 * m) &&& (2 * m - 1) = 2 * (m &&& (m - 1)) := by
  have hb1 : 2 * m = Nat.bit false m := by rw [Nat.bit_val]; simp
  have hb2 : 2 * m - 1 = Nat.bit true (m - 1) := by
    rw [Nat.bit_val]; simp; omega
  have hb3 : 2 * (m &&& (m - 1)) = Nat.bit false (m &&& (m - 1)) := by
    rw [Nat.bit_val]; simp
  rw [hb2, hb3, hb1, Nat.land_bit]
  rfl

theorem odd_and_pred (m : Nat) :
    (2 * m + 1) &&& (2 * m) = 2 * m := by
  have hb1 : 2 * m + 1 = Nat.bit true m := by rw [Nat.bit_val]; simp
  have hb2 : 2 * m = Nat.bit false m := by rw [Nat.bit_val]; simp
  rw [hb1]
  conv_lhs => rw [hb2]
  rw [Nat.land_bit]
  simp [Nat.bit_val, Nat.and_self, Nat.mul_comm]

/-- The constructor's bit test `n & (n - 1) == 0` recognizes exactly the
powers of two among the positive naturals. -/
theorem and_pred_eq_zero_iff :
    ∀ n : Nat, 1 ≤ n → ((n &&& (n - 1)) = 0 ↔ ∃ k, n = 2 ^ k) := by
  intro n
  induction n using Nat.strong_induction_on with
  | _ n ih =>
    intro hn
    rcases Nat.even_or_odd n with he | ho
    · obtain ⟨r, hr⟩ := he
      have hm : n = 2 * r := by omega
      have hr1 : 1 ≤ r := by omega
      subst hm
      rw [two_mul_and_pred r hr1]
      constructor
      · intro h0
        have : (r &&& (r - 1)) = 0 := by omega
        obtain ⟨k, hk⟩ := (ih r (by omega) hr1).1 this
        exact ⟨k + 1, by rw [hk]; ring⟩
      · rintro ⟨k, hk⟩
        match k with
        | 0 => omega
        | k + 1 =>
          have hrk : r = 2 ^ k := by
            have : 2 * r = 2 * 2 ^ k := by rw [hk]; ring
            omega
          have : (r &&& (r - 1)) = 0 := (ih r (by omega) hr1).2 ⟨k, hrk⟩
          omega
    · obtain ⟨r, hr⟩ := ho
      subst hr
      rcases Nat.eq_zero_or_pos r with hr0 | hr1
      · subst hr0
        simp
        exact ⟨0, rfl⟩
      · have : (2 * r + 1) &&& (2 * r + 1 - 1) = 2 * r := by
          have : 2 * r + 1 - 1 = 2 * r := by omega
          rw [this, odd_and_pred]
        rw [this]
        constructor
        · intro h; omega
        · rintro ⟨k, hk⟩
          match k with
          | 0 => omega
          | k + 1 =>
            exfalso
            have : 2 ∣ 2 * r + 1 := by
              rw [hk, pow_succ]
              exact dvd_mul_left 2 (2 ^ k)
            omega

/-- Bit-masking with `pool_mask_` is reduction modulo the capacity, for
any queue whose capacity is a power of two and whose mask is capacity
minus one. -/
theorem mask_eq_mod {q : MPMCQueue α}
    (hpow : ∃ k ∈ Finset.range q.pool.length, q.pool.length = 2 ^ k)
    (hmask : q.pool_mask = q.pool.length - 1) (p : Nat) :
    p &&& q.pool_mask = p % q.pool.length := by
  obtain ⟨k, -, hk⟩ := hpow
  rw [hmask, hk]
  exact Nat.and_pow_two_sub_one_eq_mod p k

/-- The first iteration of the enqueue retry loop, with the sequentially
always-successful CAS already resolved. -/
theorem enqueue_eq_step (q : MPMCQueue α) (v : α) :
    q.enqueue v =
      (if ((cellAt q (q.enqueue_index &&& q.pool_mask)).sequence : Int)
            - (q.enqueue_index : Int) = 0 then
        some (true, { q with
          enqueue_index := q.enqueue_index + 1
          pool := q.pool.set (q.enqueue_index &&& q.pool_mask)
                    ⟨q.enqueue_index + 1, some v⟩ })
      else if ((cellAt q (q.enqueue_index &&& q.pool_mask)).sequence : Int)
            - (q.enqueue_index : Int) < 0 then
        some (false, q)
      else
        enqueueLoop q v q.enqueue_index (q.pool.length + 1)) := by
  show enqueueLoop q v q.enqueue_index (q.pool.length + 1 + 1) = _
  rw [enqueueLoop]
  simp

/-- The first iteration of the dequeue retry loop, with the sequentially
always-successful CAS already resolved. -/
theorem dequeue_eq_step (q : MPMCQueue α) :
    q.dequeue =
      (if ((cellAt q (q.dequeue_index &&& q.pool_mask)).sequence : Int)
            - ((q.dequeue_index : Int) + 1) = 0 then
        some (true, (cellAt q (q.dequeue_index &&& q.pool_mask)).value,
          { q with
            dequeue_index := q.dequeue_index + 1
            pool := q.pool.set (q.dequeue_index &&& q.pool_mask)
                      ⟨q.dequeue_index + q.pool_mask + 1, none⟩ })
      else if ((cellAt q (q.dequeue_index &&& q.pool_mask)).sequence : Int)
            - ((q.dequeue_index : Int) + 1) < 0 then
        some (false, none, q)
      else
        dequeueLoop q q.dequeue_index (q.pool.length + 1)) := by
  show dequeueLoop q q.dequeue_index (q.pool.length + 1 + 1) = _
  rw [dequeueLoop]
  simp

/-- A successfully constructed queue has capacity `n`, zeroed position
counters, cell `i` carrying sequence `i` and an empty slot, and satisfies
the state invariant with no live contents. -/
theorem new_inv [DecidableEq α] (n : Nat) {q : MPMCQueue α}
    (h : MPMCQueue.new α n = some q) :
    Inv q [] ∧ q.pool.length = n ∧ q.enqueue_index = 0 ∧ q.dequeue_index = 0 ∧
      ∀ i, i < n → cellAt q i = ⟨i, none⟩ := by
  rw [MPMCQueue.new] at h
  split at h
  · exact absurd h (by simp)
  · next hcond =>
    have hok : ¬(n < 2) ∧ (n &&& (n - 1)) = 0 := by
      simpa using hcond
    obtain ⟨q, rfl⟩ : ∃ q', q' = q := ⟨q, rfl⟩
    cases Option.some.inj h
    have hlen : (((List.range n).map fun i => (⟨i, none⟩ : Cell α)).length) = n := by
      simp
    have hcell : ∀ i, i < n →
        cellAt ⟨(List.range n).map (fun i => ⟨i, none⟩), n - 1, 0, 0⟩ i
          = (⟨i, none⟩ : Cell α) := by
      intro i hi
      exact getD_map_range _ n i _ hi
    refine ⟨?_, hlen, rfl, rfl, hcell⟩
    obtain ⟨k, hk⟩ := (and_pred_eq_zero_iff n (by omega)).1 hok.2
    refine ⟨?_, ?_, ?_, Nat.le_refl 0, Nat.zero_le _, ?_, ?_, ?_⟩
    · show 2 ≤ (((List.range n).map fun i => (⟨i, none⟩ : Cell α)).length)
      rw [hlen]; omega
    · refine ⟨k, ?_, ?_⟩
      · show k ∈ Finset.range (((List.range n).map
            fun i => (⟨i, none⟩ : Cell α)).length)
        rw [hlen]
        exact Finset.mem_range.2 (hk ▸ Nat.lt_two_pow k)
      · show (((List.range n).map fun i => (⟨i, none⟩ : Cell α)).length) = 2 ^ k
        rw [hlen, hk]
    · show n - 1 = (((List.range n).map fun i => (⟨i, none⟩ : Cell α)).length) - 1
      rw [hlen]
    · show (List.nil : List α).length = 0 - 0
      simp
    · intro j hj
      simp at hj
    · intro p hp
      simp only [hlen, Finset.mem_Ico, Nat.zero_add] at hp
      show (cellAt _ (p % (((List.range n).map
          fun i => (⟨i, none⟩ : Cell α)).length))).sequence = p
      rw [hlen, Nat.mod_eq_of_lt hp.2, hcell p hp.2]

/-- With `N` live elements the cell at the claimed position still carries
the reader's sequence, so `enqueue` reports full and returns the queue
unchanged. -/
theorem enqueue_full [DecidableEq α] {q : MPMCQueue α} {l : List α}
    (h : Inv q l) (hfull : l.length = q.pool.length) (v : α) :
    q.enqueue v = some (false, q) := by
  obtain ⟨hN, hpow, hmask, hde, hed, hlen, hfill, hempty⟩ := h
  have hmm := mask_eq_mod hpow hmask
  have heq : q.enqueue_index = q.dequeue_index + q.pool.length := by omega
  have hc := (hfill 0 (Finset.mem_range.2 (by omega))).1
  have hidx : q.enqueue_index % q.pool.length
      = (q.dequeue_index + 0) % q.pool.length := by
    rw [heq, Nat.add_zero, Nat.add_mod_right]
  have hseq : (cellAt q (q.enqueue_index % q.pool.length)).sequence
      = q.dequeue_index + 1 := by
    rw [hidx, hc]
  rw [enqueue_eq_step, hmm, hseq]
  rw [if_neg (by push_cast; omega), if_pos (by push_cast; omega)]

/-- With fewer than `N` live elements the cell at the claimed position
carries the writer's sequence, so `enqueue` succeeds, advances
`enqueue_index_`, and publishes the value with sequence `pos + 1`;
the invariant carries over to the extended contents. -/
theorem enqueue_ok [DecidableEq α] {q : MPMCQueue α} {l : List α}
    (h : Inv q l) (hlt : l.length < q.pool.length) (v : α) :
    q.enqueue v = some (true, enqResult q v) ∧ Inv (enqResult q v) (l ++ [v]) := by
  obtain ⟨hN, hpow, hmask, hde, hed, hlen, hfill, hempty⟩ := h
  have hmm := mask_eq_mod hpow hmask
  have hNpos : 0 < q.pool.length := by omega
  have hlt' : q.enqueue_index < q.dequeue_index + q.pool.length := by omega
  have hc : (cellAt q (q.enqueue_index &&& q.pool_mask)).sequence
      = q.enqueue_index := by
    rw [hmm]
    exact hempty q.enqueue_index (Finset.mem_Ico.2 ⟨Nat.le_refl _, hlt'⟩)
  have hstep : q.enqueue v = some (true, enqResult q v) := by
    rw [enqueue_eq_step, hc, if_pos (by omega)]
    rfl
  refine ⟨hstep, ?_⟩
  have hlen' : (enqResult q v).pool.length = q.pool.length := by
    simp [enqResult, List.length_set]
  have hdq : (enqResult q v).dequeue_index = q.dequeue_index := rfl
  have heq2 : (enqResult q v).enqueue_index = q.enqueue_index + 1 := rfl
  have hpm : (enqResult q v).pool_mask = q.pool_mask := rfl
  have hmodlt : q.enqueue_index % q.pool.length < q.pool.length :=
    Nat.mod_lt _ hNpos
  have hcell_set : cellAt (enqResult q v) (q.enqueue_index % q.pool.length)
      = ⟨q.enqueue_index + 1, some v⟩ := by
    show (q.pool.set (q.enqueue_index &&& q.pool_mask) _).getD _ _ = _
    rw [hmm]
    exact getD_set_self q.pool _ _ _ hmodlt
  have hcell_other : ∀ j, j ≠ q.enqueue_index % q.pool.length →
      cellAt (enqResult q v) j = cellAt q j := by
    intro j hj
    show (q.pool.set (q.enqueue_index &&& q.pool_mask) _).getD _ _ = _
    rw [hmm]
    exact getD_set_ne q.pool _ _ _ _ (fun hh => hj hh.symm)
  unfold Inv
  simp only [hlen', hdq, heq2, hpm]
  refine ⟨hN, hpow, hmask, by omega, by omega, by simp; omega, ?_, ?_⟩
  · intro k hk
    simp only [List.length_append, List.length_singleton, Finset.mem_range] at hk
    rcases Nat.lt_or_ge k l.length with hkl | hkl
    · have hne : (q.dequeue_index + k) % q.pool.length
          ≠ q.enqueue_index % q.pool.length := by
        intro hmod
        have : q.dequeue_index + k = q.enqueue_index :=
          mod_eq_of_window (d := q.dequeue_index) (N := q.pool.length)
            (Nat.le_add_right _ _) (by omega) hde hlt' hmod
        omega
      rw [hcell_other _ hne]
      obtain ⟨hs, hv⟩ := hfill k (Finset.mem_range.2 hkl)
      refine ⟨hs, ?_⟩
      rw [hv, List.getElem?_append, if_pos hkl]
    · have hkeq : k = l.length := by omega
      subst hkeq
      have hpos : q.dequeue_index + l.length = q.enqueue_index := by omega
      rw [hpos, hcell_set]
      exact ⟨rfl, (List.getElem?_concat_length l v).symm⟩
  · intro p hp
    simp only [Finset.mem_Ico] at hp
    have hne : p % q.pool.length ≠ q.enqueue_index % q.pool.length := by
      intro hmod
      have : p = q.enqueue_index :=
        mod_eq_of_window (d := q.dequeue_index) (N := q.pool.length)
          (by omega) (by omega) hde hlt' hmod
      omega
    rw [hcell_other _ hne]
    exact hempty p (Finset.mem_Ico.2 ⟨by omega, by omega⟩)

/-- With no live element the cell at the read position still carries the
writer's sequence, so `dequeue` reports empty and returns the queue
unchanged with no value. -/
theorem dequeue_empty [DecidableEq α] {q : MPMCQueue α}
    (h : Inv q []) : q.dequeue = some (false, none, q) := by
  obtain ⟨hN, hpow, hmask, hde, hed, hlen, hfill, hempty⟩ := h
  have hmm := mask_eq_mod hpow hmask
  have heq : q.enqueue_index = q.dequeue_index := by simp at hlen; omega
  have hc : (cellAt q (q.dequeue_index &&& q.pool_mask)).sequence
      = q.dequeue_index := by
    rw [hmm]
    exact hempty q.dequeue_index (Finset.mem_Ico.2 ⟨by omega, by omega⟩)
  rw [dequeue_eq_step, hc]
  rw [if_neg (by omega), if_pos (by omega)]

/-- With live contents `v :: l` the cell at the read position carries the
reader's sequence and the oldest value `v`, so `dequeue` succeeds,
advances `dequeue_index_`, recycles the cell with sequence `pos + N`, and
hands back `v`; the invariant carries over to the remaining contents. -/
theorem dequeue_ok [DecidableEq α] {q : MPMCQueue α} {v : α} {l : List α}
    (h : Inv q (v :: l)) :
    q.dequeue = some (true, some v, deqResult q) ∧ Inv (deqResult q) l ∧
      (cellAt (deqResult q) (q.dequeue_index % q.pool.length)).sequence
        = q.dequeue_index + q.pool.length := by
  obtain ⟨hN, hpow, hmask, hde, hed, hlen, hfill, hempty⟩ := h
  have hmm := mask_eq_mod hpow hmask
  have hNpos : 0 < q.pool.length := by omega
  have hlen0 : (v :: l).length = l.length + 1 := rfl
  have hdlt : q.dequeue_index < q.enqueue_index := by
    rw [hlen0] at hlen; omega
  have hc0 := hfill 0 (Finset.mem_range.2 (by rw [hlen0]; omega))
  have hcs : (cellAt q (q.dequeue_index &&& q.pool_mask)).sequence
      = q.dequeue_index + 1 := by
    rw [hmm]
    simpa using hc0.1
  have hcv : (cellAt q (q.dequeue_index &&& q.pool_mask)).value = some v := by
    rw [hmm]
    simpa using hc0.2
  have hmodlt : q.dequeue_index % q.pool.length < q.pool.length :=
    Nat.mod_lt _ hNpos
  have hstep : q.dequeue = some (true, some v, deqResult q) := by
    rw [dequeue_eq_step, hcs, hcv, if_pos (by omega)]
    rfl
  refine ⟨hstep, ?_, ?_⟩
  · have hlen' : (deqResult q).pool.length = q.pool.length := by
      simp [deqResult, List.length_set]
    have hdq : (deqResult q).dequeue_index = q.dequeue_index + 1 := rfl
    have heq2 : (deqResult q).enqueue_index = q.enqueue_index := rfl
    have hpm : (deqResult q).pool_mask = q.pool_mask := rfl
    have hcell_set : cellAt (deqResult q) (q.dequeue_index % q.pool.length)
        = ⟨q.dequeue_index + q.pool_mask + 1, none⟩ := by
      show (q.pool.set (q.dequeue_index &&& q.pool_mask) _).getD _ _ = _
      rw [hmm]
      exact getD_set_self q.pool _ _ _ hmodlt
    have hcell_other : ∀ j, j ≠ q.dequeue_index % q.pool.length →
        cellAt (deqResult q) j = cellAt q j := by
      intro j hj
      show (q.pool.set (q.dequeue_index &&& q.pool_mask) _).getD _ _ = _
      rw [hmm]
      exact getD_set_ne q.pool _ _ _ _ (fun hh => hj hh.symm)
    unfold Inv
    simp only [hlen', hdq, heq2, hpm]
    refine ⟨hN, hpow, hmask, by omega, by omega, by rw [hlen0] at hlen; omega,
      ?_, ?_⟩
    · intro k hk
      simp only [Finset.mem_range] at hk
      have hkl : k + 1 < (v :: l).length := by rw [hlen0]; omega
      have hne : (q.dequeue_index + 1 + k) % q.pool.length
          ≠ q.dequeue_index % q.pool.length := by
        intro hmod
        have : q.dequeue_index + 1 + k = q.dequeue_index :=
          mod_eq_of_window (d := q.dequeue_index) (N := q.pool.length)
            (by omega) (by rw [hlen0] at hlen; omega)
            (Nat.le_refl _) (by omega) hmod
        omega
      rw [hcell_other _ hne]
      have := hfill (k + 1) (Finset.mem_range.2 hkl)
      have hpos : q.dequeue_index + (k + 1) = q.dequeue_index + 1 + k := by
        omega
      rw [hpos] at this
      refine ⟨this.1.trans (by omega), ?_⟩
      rw [this.2]
      simp
    · intro p hp
      simp only [Finset.mem_Ico] at hp
      rcases Nat.lt_or_ge p (q.dequeue_index + q.pool.length) with hpl | hpl
      · have hne : p % q.pool.length ≠ q.dequeue_index % q.pool.length := by
          intro hmod
          have : p = q.dequeue_index :=
            mod_eq_of_window (d := q.dequeue_index) (N := q.pool.length)
              (by omega) (by omega) (Nat.le_refl _) (by omega) hmod
          omega
        rw [hcell_other _ hne]
        exact hempty p (Finset.mem_Ico.2 ⟨by omega, by omega⟩)
      · have hpe : p = q.dequeue_index + q.pool.length := by omega
        have hidx : p % q.pool.length = q.dequeue_index % q.pool.length := by
          rw [hpe, Nat.add_mod_right]
        rw [hidx, hcell_set]
        show q.dequeue_index + q.pool_mask + 1 = p
        rw [hmask]
        omega
  · have hcell_set : cellAt (deqResult q) (q.dequeue_index % q.pool.length)
        = ⟨q.dequeue_index + q.pool_mask + 1, none⟩ := by
      show (q.pool.set (q.dequeue_index &&& q.pool_mask) _).getD _ _ = _
      rw [hmm]
      exact getD_set_self q.pool _ _ _ hmodlt
    rw [hcell_set]
    show q.dequeue_index + q.pool_mask + 1 = _
    rw [hmask]
    omega

/-- Keeping the flag `true` across any call sequence that contains no
`reset`: `wait` only reads, `notify`/`notify_all` re-store `true`. -/
theorem runAtomicOps_no_reset (ops : List AtomicOp)
    (h : AtomicOp.reset ∉ ops) :
    runAtomicOps ⟨true⟩ ops = ⟨true⟩ := by
  induction ops with
  | nil => rfl
  | cons op ops ih =>
    have hop : op ≠ AtomicOp.reset := by
      intro hh
      exact h (hh ▸ List.mem_cons_self op ops)
    have hops : AtomicOp.reset ∉ ops := fun hh => h (List.mem_cons_of_mem op hh)
    cases op with
    | wait => exact ih hops
    | notify => exact ih hops
    | notifyAll => exact ih hops
    | reset => exact absurd rfl hop

/-- Claim C3: MPMCQueue construction fails (with `InvalidCapacity`, i.e.
the constructor throws before a queue exists) exactly when the requested
capacity is less than 2 or is not a power of two; in particular capacities
0, 1, 3, 5, 6, 7 fail and 2, 4, 8, 1024 succeed. -/
theorem C3_construction_validity :
    (∀ n : Nat, (MPMCQueue.new Nat n).isSome ↔ (2 ≤ n ∧ ∃ k, n = 2 ^ k)) ∧
    (MPMCQueue.new Nat 0).isNone ∧ (MPMCQueue.new Nat 1).isNone ∧
    (MPMCQueue.new Nat 3).isNone ∧ (MPMCQueue.new Nat 5).isNone ∧
    (MPMCQueue.new Nat 6).isNone ∧ (MPMCQueue.new Nat 7).isNone ∧
    (MPMCQueue.new Nat 2).isSome ∧ (MPMCQueue.new Nat 4).isSome ∧
    (MPMCQueue.new Nat 8).isSome ∧ (MPMCQueue.new Nat 1024).isSome := by
  refine ⟨?_, by decide, by decide, by decide, by decide, by decide, by decide,
    by decide, by decide, by decide, by decide⟩
  intro n
  rw [MPMCQueue.new]
  split
  · next hcond =>
    simp only [Option.isSome_none, Bool.false_eq_true, false_iff]
    simp only [Bool.or_eq_true, decide_eq_true_eq, bne_iff_ne, ne_eq] at hcond
    rintro ⟨h2, k, hk⟩
    rcases hcond with hlt | hbit
    · omega
    · exact hbit ((and_pred_eq_zero_iff n (by omega)).2 ⟨k, hk⟩)
  · next hcond =>
    simp only [Option.isSome_some, true_iff]
    simp only [Bool.or_eq_true, decide_eq_true_eq, bne_iff_ne, ne_eq,
      not_or, not_not] at hcond
    exact ⟨by omega, (and_pred_eq_zero_iff n (by omega)).1 hcond.2⟩

/-- Claim C4: the cell-sequence discipline.  After construction with
capacity `N` both positions are zero and cell `i` carries sequence `i`;
after a successful enqueue claiming position `p = enqueue_index`, the cell
at `p & mask` carries sequence `p + 1`; after a successful dequeue at
position `p = dequeue_index`, that cell carries sequence `p + N`. -/
theorem C4_cell_sequence_discipline :
    (∀ (n : Nat) (q : MPMCQueue Nat), MPMCQueue.new Nat n = some q →
      q.enqueue_index = 0 ∧ q.dequeue_index = 0 ∧
      ∀ i, i < n → (cellAt q i).sequence = i) ∧
    (∀ (q q' : MPMCQueue Nat) (l : List Nat) (v : Nat), Inv q l →
      q.enqueue v = some (true, q') →
      (cellAt q' (q.enqueue_index &&& q.pool_mask)).sequence
        = q.enqueue_index + 1) ∧
    (∀ (q q' : MPMCQueue Nat) (l : List Nat) (w : Option Nat), Inv q l →
      q.dequeue = some (true, w, q') →
      (cellAt q' (q.dequeue_index &&& q.pool_mask)).sequence
        = q.dequeue_index + q.pool.length) := by
  refine ⟨?_, ?_, ?_⟩
  · intro n q h
    obtain ⟨-, -, he, hd, hcell⟩ := new_inv n h
    exact ⟨he, hd, fun i hi => by rw [hcell i hi]⟩
  · intro q q' l v h hsucc
    have hle : l.length ≤ q.pool.length := by
      obtain ⟨hN, hpow, hmask, hde, hed, hlen, -, -⟩ := h
      omega
    rcases Nat.lt_or_ge l.length q.pool.length with hlt | hge
    · obtain ⟨hrun, hinv'⟩ := enqueue_ok h hlt v
      rw [hrun] at hsucc
      cases Option.some.inj hsucc
      obtain ⟨hN, hpow, hmask, -, -, -, -, -⟩ := h
      have hmm := mask_eq_mod hpow hmask
      have hNpos : 0 < q.pool.length := by omega
      show (cellAt (enqResult q v) (q.enqueue_index &&& q.pool_mask)).sequence
        = q.enqueue_index + 1
      have : cellAt (enqResult q v) (q.enqueue_index &&& q.pool_mask)
          = ⟨q.enqueue_index + 1, some v⟩ := by
        show (q.pool.set (q.enqueue_index &&& q.pool_mask) _).getD _ _ = _
        rw [hmm]
        exact getD_set_self q.pool _ _ _ (Nat.mod_lt _ hNpos)
      rw [this]
    · have hfull : l.length = q.pool.length := by omega
      rw [enqueue_full h hfull v] at hsucc
      exact absurd (congrArg (fun o => o.map Prod.fst) hsucc) (by simp)
  · intro q q' l w h hsucc
    match l with
    | [] =>
      rw [dequeue_empty h] at hsucc
      exact absurd (congrArg (fun o => o.map (fun t => t.fst)) hsucc) (by simp)
    | v :: rest =>
      obtain ⟨hrun, -, hseq⟩ := dequeue_ok h
      rw [hrun] at hsucc
      obtain ⟨-, rfl⟩ : w = some v ∧ q' = deqResult q := by
        have := Option.some.inj hsucc
        exact ⟨(congrArg (fun t => t.2.1) this).symm,
               (congrArg (fun t => t.2.2) this).symm⟩
      obtain ⟨-, hpow, hmask, -, -, -, -, -⟩ := h
      have hmm := mask_eq_mod hpow hmask
      rw [hmm]
      exact hseq

/-- Claim C5: on every invariant-satisfying (hence every reachable) queue
state with live contents `l` and capacity `N`, `enqueue` returns `false`
exactly when `l` has `N` elements, `dequeue` returns `false` exactly when
`l` is empty, and otherwise each operation succeeds with `true`. -/
theorem C5_full_empty_boundary (q : MPMCQueue Nat) (l : List Nat) (v : Nat)
    (h : Inv q l) :
    ((∃ q', q.enqueue v = some (false, q')) ↔ l.length = q.pool.length) ∧
    ((∃ q', q.enqueue v = some (true, q')) ↔ l.length < q.pool.length) ∧
    ((∃ q', q.dequeue = some (false, none, q')) ↔ l = []) ∧
    ((∃ w q', q.dequeue = some (true, w, q')) ↔ l ≠ []) := by
  have hle : l.length ≤ q.pool.length := by
    obtain ⟨hN, hpow, hmask, hde, hed, hlen, -, -⟩ := h
    omega
  refine ⟨⟨?_, ?_⟩, ⟨?_, ?_⟩, ⟨?_, ?_⟩, ⟨?_, ?_⟩⟩
  · rintro ⟨q', hq'⟩
    by_contra hne
    have hlt : l.length < q.pool.length := by omega
    obtain ⟨hrun, -⟩ := enqueue_ok h hlt v
    rw [hrun] at hq'
    exact absurd (congrArg (fun o => o.map Prod.fst) hq') (by simp)
  · intro hfull
    exact ⟨q, enqueue_full h hfull v⟩
  · rintro ⟨q', hq'⟩
    by_contra hge
    have hfull : l.length = q.pool.length := by omega
    rw [enqueue_full h hfull v] at hq'
    exact absurd (congrArg (fun o => o.map Prod.fst) hq') (by simp)
  · intro hlt
    obtain ⟨hrun, -⟩ := enqueue_ok h hlt v
    exact ⟨enqResult q v, hrun⟩
  · rintro ⟨q', hq'⟩
    by_contra hne
    match l, hne with
    | w :: rest, _ =>
      obtain ⟨hrun, -, -⟩ := dequeue_ok (v := w) (l := rest) h
      rw [hrun] at hq'
      exact absurd (congrArg (fun o => o.map (fun t => t.fst)) hq') (by simp)
  · rintro rfl
    exact ⟨q, dequeue_empty h⟩
  · rintro ⟨w, q', hq'⟩
    intro hnil
    subst hnil
    rw [dequeue_empty h] at hq'
    exact absurd (congrArg (fun o => o.map (fun t => t.fst)) hq') (by simp)
  · intro hne
    match l, hne with
    | w :: rest, _ =>
      obtain ⟨hrun, -, -⟩ := dequeue_ok (v := w) (l := rest) h
      exact ⟨some w, deqResult q, hrun⟩

/-- Claim C4, witness on a capacity-2 queue: construction zeroes the
positions and numbers the cells; enqueueing 10 at position 0 leaves
sequence 1; dequeueing it back leaves sequence 0 + 2. -/
theorem C4_witness :
    (⟨[⟨0, none⟩, ⟨1, none⟩], 1, 0, 0⟩ : MPMCQueue Nat).enqueue_index = 0 ∧
    (⟨[⟨0, none⟩, ⟨1, none⟩], 1, 0, 0⟩ : MPMCQueue Nat).dequeue_index = 0 ∧
    (cellAt (⟨[⟨0, none⟩, ⟨1, none⟩], 1, 0, 0⟩ : MPMCQueue Nat) 1).sequence
      = 1 ∧
    (cellAt (⟨[⟨1, some 10⟩, ⟨1, none⟩], 1, 1, 0⟩ : MPMCQueue Nat)
        (0 &&& 1)).sequence = 0 + 1 ∧
    (cellAt (⟨[⟨2, none⟩, ⟨1, none⟩], 1, 1, 1⟩ : MPMCQueue Nat)
        (0 &&& 1)).sequence = 0 + 2 :=
  ⟨(C4_cell_sequence_discipline.1 2 _ (by decide)).1,
   (C4_cell_sequence_discipline.1 2 _ (by decide)).2.1,
   (C4_cell_sequence_discipline.1 2 _ (by decide)).2.2 1 (by decide),
   C4_cell_sequence_discipline.2.1 ⟨[⟨0, none⟩, ⟨1, none⟩], 1, 0, 0⟩
     ⟨[⟨1, some 10⟩, ⟨1, none⟩], 1, 1, 0⟩ [] 10 (by decide) (by decide),
   C4_cell_sequence_discipline.2.2 ⟨[⟨1, some 10⟩, ⟨1, none⟩], 1, 1, 0⟩
     ⟨[⟨2, none⟩, ⟨1, none⟩], 1, 1, 1⟩ [10] (some 10) (by decide) (by decide)⟩

/-- Claim C5, witness on the reachable full capacity-2 queue holding
`[10, 20]`: enqueue reports full, dequeue succeeds. -/
theorem C5_witness :
    Inv (⟨[⟨1, some 10⟩, ⟨2, some 20⟩], 1, 2, 0⟩ : MPMCQueue Nat) [10, 20] ∧
    ((∃ q', (⟨[⟨1, some 10⟩, ⟨2, some 20⟩], 1, 2, 0⟩ : MPMCQueue Nat).enqueue 30
        = some (false, q')) ↔ ([10, 20] : List Nat).length = 2) ∧
    ((∃ q', (⟨[⟨1, some 10⟩, ⟨2, some 20⟩], 1, 2, 0⟩ : MPMCQueue Nat).enqueue 30
        = some (true, q')) ↔ ([10, 20] : List Nat).length < 2) ∧
    ((∃ w q', (⟨[⟨1, some 10⟩, ⟨2, some 20⟩], 1, 2, 0⟩ : MPMCQueue Nat).dequeue
        = some (true, w, q')) ↔ ([10, 20] : List Nat) ≠ []) := by
  have h : Inv (⟨[⟨1, some 10⟩, ⟨2, some 20⟩], 1, 2, 0⟩ : MPMCQueue Nat)
      [10, 20] := by decide
  have hc := C5_full_empty_boundary _ [10, 20] 30 h
  exact ⟨h, hc.1, hc.2.1, hc.2.2.2⟩

/-- Claim C6 counterexample: on the reachable full capacity-2 queue
(constructed by `new 2` and two successful enqueues of 10 and 20), a call
`enqueue(std::move(x))` with `x` holding 30 returns `false` — and the
caller is left holding a moved-from object (`none`), not the value 30:
`enqueue` takes its parameter by value and returns only `bool`, so the
rejected value is destroyed with the parameter instead of being returned
to the caller or left caller-owned. -/
theorem C6_counterexample :
    MPMCQueue.new Nat 2 = some ⟨[⟨0, none⟩, ⟨1, none⟩], 1, 0, 0⟩ ∧
    (⟨[⟨0, none⟩, ⟨1, none⟩], 1, 0, 0⟩ : MPMCQueue Nat).enqueue 10
      = some (true, ⟨[⟨1, some 10⟩, ⟨1, none⟩], 1, 1, 0⟩) ∧
    (⟨[⟨1, some 10⟩, ⟨1, none⟩], 1, 1, 0⟩ : MPMCQueue Nat).enqueue 20
      = some (true, ⟨[⟨1, some 10⟩, ⟨2, some 20⟩], 1, 2, 0⟩) ∧
    enqueueCallMoveOnly (⟨[⟨1, some 10⟩, ⟨2, some 20⟩], 1, 2, 0⟩ : MPMCQueue Nat)
        (some 30)
      = (none, some (false, ⟨[⟨1, some 10⟩, ⟨2, some 20⟩], 1, 2, 0⟩)) ∧
    (none : Option Nat) ≠ some 30 := by
  refine ⟨by decide, by decide, by decide, by decide, by decide⟩

/-- Claim C6 amended: when `enqueue` returns `false` (queue full), the
queue state is unchanged and the value is not enqueued; but the value is
not returned to the caller — the by-value parameter consumes a moved-in
argument, so after the call the caller of `enqueue(std::move(x))` holds a
moved-from object whether or not the enqueue succeeded. -/
theorem C6_amended (q : MPMCQueue Nat) (l : List Nat) (v : Nat)
    (h : Inv q l) (hfull : l.length = q.pool.length) :
    q.enqueue v = some (false, q) ∧
    enqueueCallMoveOnly q (some v) = (none, some (false, q)) := by
  have hrun := enqueue_full h hfull v
  exact ⟨hrun, by rw [enqueueCallMoveOnly, hrun]⟩

/-- Claim C6 amended, witness at the concrete full capacity-2 queue. -/
theorem C6_witness :
    Inv (⟨[⟨1, some 10⟩, ⟨2, some 20⟩], 1, 2, 0⟩ : MPMCQueue Nat) [10, 20] ∧
    (⟨[⟨1, some 10⟩, ⟨2, some 20⟩], 1, 2, 0⟩ : MPMCQueue Nat).enqueue 30
      = some (false, ⟨[⟨1, some 10⟩, ⟨2, some 20⟩], 1, 2, 0⟩) ∧
    enqueueCallMoveOnly (⟨[⟨1, some 10⟩, ⟨2, some 20⟩], 1, 2, 0⟩ : MPMCQueue Nat)
        (some 30)
      = (none, some (false, ⟨[⟨1, some 10⟩, ⟨2, some 20⟩], 1, 2, 0⟩)) := by
  have h : Inv (⟨[⟨1, some 10⟩, ⟨2, some 20⟩], 1, 2, 0⟩ : MPMCQueue Nat)
      [10, 20] := by decide
  obtain ⟨h1, h2⟩ := C6_amended _ [10, 20] 30 h (by decide)
  exact ⟨h, h1, h2⟩

/-- Claim C7 counterexample: with `KSpinCount = 1` and `KPauseCount = 1`,
after two `wait()` calls the counter sits at `S + P = 2`; the third call —
"beyond the first S + P" — performs no OS yield: the function body has no
branch for `spin_count_ >= KSpinCount + KPauseCount` and does nothing. -/
theorem C7_counterexample :
    waitN 1 1 2 = ⟨2⟩ ∧
    (SpinBackOffWaitStrategy.wait 1 1 ⟨2⟩).1 = SpinAction.noAction ∧
    (SpinBackOffWaitStrategy.wait 1 1 ⟨2⟩).2 = ⟨2⟩ ∧
    SpinAction.noAction ≠ SpinAction.yieldOS := by
  refine ⟨by decide, by decide, by decide, by decide⟩

/-- Claim C7 amended: for the spin+pause strategy with parameters `S` and
`P`, the first `S` calls to `wait()` are pure spin iterations and the next
`P` calls issue the CPU pause hint, each advancing the counter; every call
beyond the first `S + P` does nothing at all — it neither yields to the OS
nor advances the counter.  `reset()` restarts the count at zero, so the
next `wait()` begins at the first spin iteration again. -/
theorem C7_amended (S P n : Nat) :
    waitN S P n = ⟨min n (S + P)⟩ ∧
    (SpinBackOffWaitStrategy.wait S P (waitN S P n)).1
      = (if n < S then SpinAction.spinLoad
         else if n < S + P then SpinAction.pauseHint
         else SpinAction.noAction) ∧
    (∀ s : SpinBackOffWaitStrategy, s.reset = ⟨0⟩) := by
  have hstate : ∀ m : Nat, waitN S P m = ⟨min m (S + P)⟩ := by
    intro m
    induction m with
    | zero => simp [waitN]
    | succ m ih =>
      rw [waitN, ih, SpinBackOffWaitStrategy.wait]
      rcases Nat.lt_or_ge m S with h1 | h1
      · rw [if_pos (by show min m (S + P) < S; omega)]
        show (⟨min m (S + P) + 1⟩ : SpinBackOffWaitStrategy) = _
        congr 1
        omega
      · rcases Nat.lt_or_ge m (S + P) with h2 | h2
        · rw [if_neg (by show ¬(min m (S + P) < S); omega),
            if_pos (by show min m (S + P) < S + P; omega)]
          show (⟨min m (S + P) + 1⟩ : SpinBackOffWaitStrategy) = _
          congr 1
          omega
        · rw [if_neg (by show ¬(min m (S + P) < S); omega),
            if_neg (by show ¬(min m (S + P) < S + P); omega)]
          show (⟨min m (S + P)⟩ : SpinBackOffWaitStrategy) = ⟨min (m + 1) (S + P)⟩
          congr 1
          omega
  refine ⟨hstate n, ?_, fun s => rfl⟩
  rw [hstate n, SpinBackOffWaitStrategy.wait]
  rcases Nat.lt_or_ge n S with h1 | h1
  · rw [if_pos (by show min n (S + P) < S; omega), if_pos h1]
  · rcases Nat.lt_or_ge n (S + P) with h2 | h2
    · rw [if_neg (by show ¬(min n (S + P) < S); omega),
        if_pos (by show min n (S + P) < S + P; omega),
        if_neg (by omega), if_pos h2]
    · rw [if_neg (by show ¬(min n (S + P) < S); omega),
        if_neg (by show ¬(min n (S + P) < S + P); omega),
        if_neg (by omega), if_neg (by omega)]

/-- Claim C1, behaviour of the code at the failing input: `submit` on a
pool whose lifecycle state is `Stopped` (as after `shutdown()`), with a
fresh capacity-2 queue, does not fail — the body of
`ThreadPool::submit` never reads `state_`, so it enqueues the envelope,
calls `notify()` on the wait strategy, and returns the future.  The spec's
required `NotRunning` rejection does not exist in the code. -/
theorem C1_submit_ignores_state :
    submit (⟨⟨[⟨0, none⟩, ⟨1, none⟩], 1, 0, 0⟩,
             State.Stopped, 0, ⟨false⟩, []⟩ : ThreadPoolModel Nat) 7
      = some (SubmitOutcome.ok,
          ⟨⟨[⟨1, some 7⟩, ⟨1, none⟩], 1, 1, 0⟩,
           State.Stopped, 0, ⟨true⟩, []⟩) := by decide

/-- Claim C2: one worker-loop iteration exits if and only if the dequeue
just returned `false` (equivalently, on an invariant-satisfying queue, the
live contents are empty), the state reads `Stopping`, and
`active_tasks == 0`; and because the loop attempts dequeue before checking
the state, a worker running in a `Stopping` pool first executes every
envelope still in the queue, in order, and only then exits. -/
theorem C2_worker_exit_and_drain (p : ThreadPoolModel Nat) (l : List Nat)
    (h : Inv p.task_queue l) :
    (worker_step p = WorkerStep.exited ↔
      l = [] ∧ p.state = State.Stopping ∧ p.active_tasks = 0) ∧
    (p.state = State.Stopping → p.active_tasks = 0 →
      ∃ p', worker_run (l.length + 1) p = some p' ∧
        p'.executed = p.executed ++ l ∧ p'.state = State.Stopping ∧
        Inv p'.task_queue []) := by
  constructor
  · constructor
    · intro hstep
      rw [worker_step] at hstep
      match hl : l, h with
      | [], h =>
        rw [dequeue_empty h] at hstep
        simp only at hstep
        split at hstep
        · next hcond => exact ⟨rfl, hcond.1, hcond.2⟩
        · exact absurd hstep (by simp)
      | v :: rest, h =>
        obtain ⟨hrun, -, -⟩ := dequeue_ok (v := v) (l := rest) h
        rw [hrun] at hstep
        exact absurd hstep (by simp)
    · rintro ⟨rfl, hstate, hactive⟩
      rw [worker_step, dequeue_empty h]
      simp only
      rw [if_pos ⟨hstate, hactive⟩]
  · induction l generalizing p with
    | nil =>
      intro hstate hactive
      refine ⟨p, ?_, by simp, hstate, h⟩
      rw [worker_run, worker_step, dequeue_empty h]
      simp only
      rw [if_pos ⟨hstate, hactive⟩]
    | cons v rest ih =>
      intro hstate hactive
      obtain ⟨hrun, hinv', -⟩ := dequeue_ok (v := v) (l := rest) h
      have hstep : worker_step p = WorkerStep.next
          { p with
            task_queue := deqResult p.task_queue
            wait_strategy := p.wait_strategy.reset
            executed := p.executed ++ [v] } := by
        rw [worker_step, hrun]
        rfl
      obtain ⟨p', hp'run, hp'exec, hp'state, hp'inv⟩ :=
        ih { p with
              task_queue := deqResult p.task_queue
              wait_strategy := p.wait_strategy.reset
              executed := p.executed ++ [v] } hinv' hstate hactive
      refine ⟨p', ?_, ?_, hp'state, hp'inv⟩
      · rw [worker_run, hstep]
        exact hp'run
      · rw [hp'exec]
        simp

/-- Claim C2, witness: a pool in state `Stopping` with zero active tasks
and the single envelope 4 in its queue drains it (executes 4) and exits. -/
theorem C2_witness :
    Inv (⟨[⟨1, some 4⟩, ⟨1, none⟩], 1, 1, 0⟩ : MPMCQueue Nat) [4] ∧
    (∃ p', worker_run 2 (⟨⟨[⟨1, some 4⟩, ⟨1, none⟩], 1, 1, 0⟩,
        State.Stopping, 0, ⟨false⟩, []⟩ : ThreadPoolModel Nat) = some p' ∧
      p'.executed = [] ++ [4] ∧ p'.state = State.Stopping ∧
      Inv p'.task_queue []) := by
  have h : Inv ((⟨⟨[⟨1, some 4⟩, ⟨1, none⟩], 1, 1, 0⟩, State.Stopping, 0,
      ⟨false⟩, []⟩ : ThreadPoolModel Nat).task_queue) [4] := by decide
  exact ⟨h, (C2_worker_exit_and_drain _ [4] h).2 rfl rfl⟩

/-- Claim C8: `shutdown` is idempotent.  From `Running` it stores
`Stopping`, calls `notify_all`, joins every worker, then stores `Stopped`;
from any other state it returns immediately with no effect; hence two
consecutive calls starting from `Running` leave the pool `Stopped` and a
third call is again a no-op. -/
theorem C8_shutdown_idempotent (P : Nat) (p : ThreadPoolModel Nat) :
    (p.state = State.Running →
      shutdown P p
        = ({ p with
              state := State.Stopped
              wait_strategy := p.wait_strategy.notify_all },
           [PoolEvent.StoreState State.Stopping, PoolEvent.NotifyAll]
             ++ (List.range P).map PoolEvent.JoinWorker
             ++ [PoolEvent.StoreState State.Stopped])) ∧
    (p.state ≠ State.Running → shutdown P p = (p, [])) ∧
    (p.state = State.Running →
      (shutdown P p).1.state = State.Stopped ∧
      shutdown P (shutdown P p).1 = ((shutdown P p).1, []) ∧
      shutdown P (shutdown P (shutdown P p).1).1 = ((shutdown P p).1, [])) := by
  refine ⟨?_, ?_, ?_⟩
  · intro hrun
    rw [shutdown, if_neg (by simp [hrun])]
  · intro hnot
    rw [shutdown, if_pos hnot]
  · intro hrun
    have h1 : shutdown P p
        = ({ p with
              state := State.Stopped
              wait_strategy := p.wait_strategy.notify_all },
           [PoolEvent.StoreState State.Stopping, PoolEvent.NotifyAll]
             ++ (List.range P).map PoolEvent.JoinWorker
             ++ [PoolEvent.StoreState State.Stopped]) := by
      rw [shutdown, if_neg (by simp [hrun])]
    have hstop : (shutdown P p).1.state = State.Stopped := by
      rw [h1]
    have h2 : shutdown P (shutdown P p).1 = ((shutdown P p).1, []) := by
      rw [shutdown, if_pos (by rw [hstop]; intro hh; exact absurd hh (by decide))]
    refine ⟨hstop, h2, ?_⟩
    rw [h2]
    rw [shutdown, if_pos (by rw [hstop]; intro hh; exact absurd hh (by decide))]

/-- Claim C8, witness at a concrete `Running` pool with two workers. -/
theorem C8_witness :
    (⟨⟨[⟨0, none⟩, ⟨1, none⟩], 1, 0, 0⟩, State.Running, 0, ⟨false⟩, []⟩
        : ThreadPoolModel Nat).state = State.Running ∧
    (shutdown 2 (⟨⟨[⟨0, none⟩, ⟨1, none⟩], 1, 0, 0⟩, State.Running, 0,
        ⟨false⟩, []⟩ : ThreadPoolModel Nat)).1.state = State.Stopped ∧
    shutdown 2 (shutdown 2 (⟨⟨[⟨0, none⟩, ⟨1, none⟩], 1, 0, 0⟩, State.Running,
        0, ⟨false⟩, []⟩ : ThreadPoolModel Nat)).1
      = ((shutdown 2 (⟨⟨[⟨0, none⟩, ⟨1, none⟩], 1, 0, 0⟩, State.Running, 0,
          ⟨false⟩, []⟩ : ThreadPoolModel Nat)).1, []) := by
  have h := (C8_shutdown_idempotent 2
    (⟨⟨[⟨0, none⟩, ⟨1, none⟩], 1, 0, 0⟩, State.Running, 0, ⟨false⟩, []⟩
      : ThreadPoolModel Nat)).2.2 rfl
  exact ⟨rfl, h.1, h.2.1⟩

/-- Claim C9: `shutdown()` invoked while the lifecycle state is
`Initializing` is a no-op: the guard `state_ != State::Running` fires for
every non-`Running` state, so the state stays `Initializing`, no event is
emitted — no `Stopping` store, no `notify_all`, no join. -/
theorem C9_shutdown_initializing_noop (P : Nat) (p : ThreadPoolModel Nat)
    (h : p.state = State.Initializing) :
    shutdown P p = (p, []) ∧
    (shutdown P p).1.state = State.Initializing ∧ (shutdown P p).2 = [] := by
  have h1 : shutdown P p = (p, []) := by
    rw [shutdown, if_pos (by rw [h]; intro hh; exact absurd hh (by decide))]
  exact ⟨h1, by rw [h1]; exact h, by rw [h1]⟩

/-- Claim C9, witness at a concrete `Initializing` pool. -/
theorem C9_witness :
    (⟨⟨[⟨0, none⟩, ⟨1, none⟩], 1, 0, 0⟩, State.Initializing, 0, ⟨false⟩, []⟩
        : ThreadPoolModel Nat).state = State.Initializing ∧
    shutdown 4 (⟨⟨[⟨0, none⟩, ⟨1, none⟩], 1, 0, 0⟩, State.Initializing, 0,
        ⟨false⟩, []⟩ : ThreadPoolModel Nat)
      = ((⟨⟨[⟨0, none⟩, ⟨1, none⟩], 1, 0, 0⟩, State.Initializing, 0,
          ⟨false⟩, []⟩ : ThreadPoolModel Nat), []) := by
  exact ⟨rfl, (C9_shutdown_initializing_noop 4 _ rfl).1⟩

/-- Claim C10: the `AtomicWaitStrategy` notification flag latches.  After
`notify()` or `notify_all()` the flag is `true`, and it stays `true`
across any further sequence of `wait`/`notify`/`notify_all` calls that
contains no `reset`, so every `wait()` in that span returns immediately;
`wait` returns immediately exactly when the flag is `true`, and `reset()`
(alone) restores the blocking behaviour by storing `false`. -/
theorem C10_atomic_flag_latches (s : AtomicWaitStrategy) (ops : List AtomicOp)
    (h : AtomicOp.reset ∉ ops) :
    (runAtomicOps s.notify ops).wait = WaitOutcome.immediate ∧
    (runAtomicOps s.notify_all ops).wait = WaitOutcome.immediate ∧
    s.reset.wait = WaitOutcome.blocks ∧
    (∀ s' : AtomicWaitStrategy,
      s'.wait = WaitOutcome.immediate ↔ s'.notified = true) := by
  refine ⟨?_, ?_, rfl, ?_⟩
  · rw [show s.notify = (⟨true⟩ : AtomicWaitStrategy) from rfl,
      runAtomicOps_no_reset ops h]
    rfl
  · rw [show s.notify_all = (⟨true⟩ : AtomicWaitStrategy) from rfl,
      runAtomicOps_no_reset ops h]
    rfl
  · intro s'
    cases s' with
    | mk b => cases b <;> simp [AtomicWaitStrategy.wait]

/-- Claim C10, witness: after a `notify`, two further waits and another
`notify` (no `reset`), `wait` still returns immediately. -/
theorem C10_witness :
    AtomicOp.reset ∉ [AtomicOp.wait, AtomicOp.notify, AtomicOp.wait] ∧
    (runAtomicOps (AtomicWaitStrategy.notify ⟨false⟩)
        [AtomicOp.wait, AtomicOp.notify, AtomicOp.wait]).wait
      = WaitOutcome.immediate ∧
    (AtomicWaitStrategy.reset ⟨true⟩).wait = WaitOutcome.blocks := by
  have h : AtomicOp.reset ∉ [AtomicOp.wait, AtomicOp.notify, AtomicOp.wait] := by
    decide
  have hc := C10_atomic_flag_latches ⟨false⟩
    [AtomicOp.wait, AtomicOp.notify, AtomicOp.wait] h
  exact ⟨h, hc.1, hc.2.2.1⟩

end LC
